import Mathlib

/-!
Verification of the `md2html` site generator (`krea.to` repository).

The Go sources under `md2html/pkg/converter` are shallowly embedded below.
Strings are modelled as Lean `String`s; every `strings`/`path/filepath`
operation the embedded functions use is reimplemented on `String.data`
(`List Char`) so that all definitions are executable and kernel-reducible.
Paths use the Linux separator `'/'` throughout (the build runs on Linux;
`runtime.GOOS == "windows"` branches are dead there), and `filepath.Abs`
is modelled as the identity: inputs are taken to be clean absolute paths,
on which Go's `Abs` is the identity.

Two helpers of the repository (`prependPathPrefix`, used by
`files.go`, and the `TagInfo` record used by `collectTags`) have no
definition in the available sources; they are modelled from the
specification and marked as such in their doc comments.
-/

namespace Krea

/-! ## Go string primitives (char-level models of package `strings`) -/

/-- Model of `strings.Split(s, sep)` for a one-character separator:
splits into the pieces between occurrences of `sep` (pieces may be empty,
the result is never empty). -/
def splitOnChar (sep : Char) : List Char → List (List Char)
  | [] => [[]]
  | a :: rest =>
    if a = sep then [] :: splitOnChar sep rest
    else
      match splitOnChar sep rest with
      | [] => [[a]]
      | p :: ps => (a :: p) :: ps

/-- Model of `strings.Join(pieces, sep)` at the character level. -/
def joinPieces (sep : List Char) : List (List Char) → List Char
  | [] => []
  | [p] => p
  | p :: ps => p ++ sep ++ joinPieces sep ps

/-- First occurrence search: `findOcc sep s = some (pre, post)` when
`s = pre ++ sep ++ post` and this is the leftmost occurrence of `sep`;
`none` when `sep` does not occur in `s`.  This models `strings.Index`
(the index being `pre.length`) together with the slicing around it. -/
def findOcc (sep : List Char) : List Char → Option (List Char × List Char)
  | [] => none
  | c :: rest =>
    if sep.isPrefixOf (c :: rest) then some ([], (c :: rest).drop sep.length)
    else
      match findOcc sep rest with
      | some (pre, post) => some (c :: pre, post)
      | none => none

/-- The second entry of `strings.Split(s, sep)` (Go's `segments[1]`),
present exactly when `sep` occurs in `s`: the piece between the first
occurrence and the following occurrence (or the end of the string). -/
def secondPiece (sep : List Char) (s : List Char) : Option (List Char) :=
  match findOcc sep s with
  | none => none
  | some (_, post) =>
    match findOcc sep post with
    | none => some post
    | some (pre2, _) => some pre2

/-- Model of `strings.HasPrefix`. -/
def goHasPre (s p : String) : Bool := p.data.isPrefixOf s.data

/-- Model of `strings.Contains`, via the index search (as in Go's
implementation, `Contains(s, sub) = Index(s, sub) >= 0`). -/
def goContains (s sub : String) : Bool := (findOcc sub.data s.data).isSome

/-- Model of `strings.TrimPrefix`. -/
def goTrimPre (s p : String) : String :=
  if p.data.isPrefixOf s.data then ⟨s.data.drop p.data.length⟩ else s

/-- Model of `strings.TrimSuffix`. -/
def goTrimSuf (s p : String) : String :=
  if p.data.isSuffixOf s.data then ⟨s.data.take (s.data.length - p.data.length)⟩ else s

/-- Model of `strings.TrimSpace` (ASCII whitespace suffices for the
inputs the converter handles). -/
def trimSpace (l : List Char) : List Char :=
  ((l.dropWhile Char.isWhitespace).reverse.dropWhile Char.isWhitespace).reverse

/-- Model of `strings.ToLower` (ASCII case folding). -/
def goToLower (s : String) : String := ⟨s.data.map Char.toLower⟩

/-- Model of `strings.ReplaceAll(s, old, new)` for a one-character `old`:
equal to `Join(Split(s, old), new)`. -/
def goReplaceAllChar (s : String) (old : Char) (new : String) : String :=
  ⟨joinPieces new.data (splitOnChar old s.data)⟩

/-- Go's byte-wise string comparison `a < b` at the character level. -/
def lexLt : List Char → List Char → Bool
  | [], [] => false
  | [], _ :: _ => true
  | _ :: _, [] => false
  | a :: as, b :: bs => if a < b then true else if b < a then false else lexLt as bs

/-- `n` copies of a string, as built by the Go loops
`for i := 0; i < n; i++ { prefix += "../" }`. -/
def nCopies : Nat → String → String
  | 0, _ => ""
  | n + 1, s => s ++ nCopies n s

/-- Model of `strings.Split(s, string(filepath.Separator))` on Linux. -/
def goSplitSlash (s : String) : List String :=
  (splitOnChar '/' s.data).map String.mk

/-- Model of the Go loop
`for i, comp := range comps { if comp == target { idx = i; break } }`. -/
def findFirstIdx (target : String) : List String → Option Nat
  | [] => none
  | c :: rest => if c = target then some 0 else (findFirstIdx target rest).map (· + 1)

/-- Model of `strings.SplitN(l, sep, 2)` for a one-character separator. -/
def splitN2 (sep : Char) (l : List Char) : List (List Char) :=
  match splitOnChar sep l with
  | [] => []
  | [p] => [p]
  | p :: ps => [p, joinPieces [sep] ps]

/-! ## Front-matter metadata (`extractMetadata`, `converter.go:404-436`
and `src/unnamed/part_005`, identical) -/

/-- Assignment into the Go metadata map `metadata[key] = value`:
replaces an existing binding, otherwise appends. -/
def metaInsert : List (String × String) → String → String → List (String × String)
  | [], k, v => [(k, v)]
  | (k', v') :: rest, k, v =>
    if k' = k then (k, v) :: rest else (k', v') :: metaInsert rest k v

/-- Lookup in the metadata map; a missing key yields `""` like a Go map
of strings. -/
def metaGet (m : List (String × String)) (k : String) : String :=
  match m.find? (fun kv => kv.1 = k) with
  | some kv => kv.2
  | none => ""

/-- One line of the front-matter block: trim, skip empty lines, split at
the first colon into key and value, trim both and assign. -/
def parseMetaLine (m : List (String × String)) (line : List Char) : List (String × String) :=
  let l := trimSpace line
  if l = [] then m
  else
    match splitN2 ':' l with
    | [k, v] => metaInsert m ⟨trimSpace k⟩ ⟨trimSpace v⟩
    | _ => m

/-- Embedding of `extractMetadata` (`converter.go:404-436`): a front-matter
block is recognized only when the content literally starts with `"<!--"`
and contains a closing `"-->"`; otherwise the metadata map is empty and
the content is returned unchanged.  (`content[4:endIndex]` is modelled by
`pre.drop 4`; for every recognized input the closing marker lies at index
`>= 4` except the degenerate `"<!-->"`, on which the Go code slices out of
range — no claim touches that input.) -/
def extractMetadata (mdContent : String) : List (String × String) × String :=
  if goHasPre mdContent "<!--" then
    match findOcc "-->".data mdContent.data with
    | some (pre, post) =>
      let metaContent := pre.drop 4
      let lines := splitOnChar '\n' metaContent
      (lines.foldl parseMetaLine [], ⟨post⟩)
    | none => ([], mdContent)
  else ([], mdContent)

/-! ## Data model (structs of `src/unnamed/part_008`, as used by
`files.go` and `templates.go`) -/

/-- Embedding of `converter.Config`. -/
structure Config where
  TemplateFile : String
  OutputDir : String
  CSSPath : String
  JSPath : String
  SiteTitle : String
  DefaultAuthor : String
  GenerateList : Bool
  Recursive : Bool
  GenerateRSS : Bool
  SiteURL : String
  GitWebURL : String
  ShowCommitInfo : Bool
  DefaultTheme : String
deriving DecidableEq

/-- Embedding of `converter.BlogPost` (current version, with the fields
`files.go` populates). -/
structure BlogPost where
  Title : String
  Link : String
  Description : String
  Date : String
  FullURL : String
  Author : String
  Content : String
  FilePath : String
  CommitHash : String
  CommitDate : String
  CommitAuthor : String
  CommitURL : String
  ReadTime : String
  Tags : List String
deriving DecidableEq

/-- Embedding of `converter.Directory`. -/
structure Directory where
  Name : String
  Link : String
deriving DecidableEq

/-- Embedding of `converter.IndexData` (the fields `generateIndex` in
`templates.go` populates). -/
structure IndexData where
  Title : String
  CSSPath : String
  JSPath : String
  Posts : List BlogPost
  Directories : List Directory
  BackURL : String
  HasDirectories : Bool
  URL : String
  Image : String
deriving DecidableEq

/-- Embedding of `converter.SearchIndexEntry` (`templates.go:17-23`). -/
structure SearchIndexEntry where
  Title : String
  Link : String
  Description : String
  Content : String
  Date : String
deriving DecidableEq

/-- Record behind `map[string]*TagInfo` in `collectTags`
(`src/unnamed/part_007:408-426`).  Modelled from the spec: the `TagInfo`
type declaration itself is not among the available sources; its fields
`Name`, `Count`, `Posts` are exactly the ones `collectTags` populates. -/
structure TagInfo where
  Name : String
  Count : Nat
  Posts : List BlogPost
deriving DecidableEq

/-! ## PathResolver (`paths.go`) -/

/-- Modelled from the spec: `prependPathPrefix` is used by
`files.go` but its definition is not among the available sources.
Per spec section 4.1 (`resolveAssetPaths`): prepend the requested number
of `"../"` segments to the configured asset path, stripping any leading
`"/"` first; absolute (`http`/`https`) asset URLs are never prefixed. -/
def prependPathPrefix (path : String) (levels : Nat) : String :=
  if goHasPre path "http" then path
  else
    let base := if goHasPre path "/" then (⟨path.data.drop 1⟩ : String) else path
    nCopies levels "../" ++ base

/-- The non-blog branch of `adjustPaths` (`paths.go:224-263`), for one of
the two asset paths: prefix `depth` copies of `"../"` (stripping a
leading `"/"`), leave `http` URLs untouched, and at depth 0 only strip a
leading `"/"`. -/
def adjustOnePath (path : String) (depth : Nat) : String :=
  if goHasPre path "http" then path
  else if depth > 0 then
    let px := nCopies depth "../"
    if goHasPre path "/" then px ++ (⟨path.data.drop 1⟩ : String) else px ++ path
  else if goHasPre path "/" then (⟨path.data.drop 1⟩ : String)
  else path

/-- Embedding of `adjustPaths` (`paths.go:190-265`): the output path's
components are scanned for a component equal to `"blog"`; a first-level
category (`blog/X`) gets the hard-coded `"../../css/style.css"` /
`"../../js/script.js"`, deeper nesting gets `len(blogComponents)-1`
copies of `"../"` before the same hard-coded names, and everything else
(including the blog root itself, which falls through) gets the generic
depth-based adjustment. -/
def adjustPaths (config : Config) (depth : Nat) (outputDir : String) : Config :=
  let outComponents := goSplitSlash outputDir
  let blogBranch :=
    match findFirstIdx "blog" outComponents with
    | some blogIndex =>
      let blogComponents := outComponents.drop blogIndex
      if blogComponents.length = 2 then
        some { config with CSSPath := "../../css/style.css", JSPath := "../../js/script.js" }
      else if blogComponents.length > 2 then
        let nestingDepth := blogComponents.length - 1
        some { config with CSSPath := nCopies nestingDepth "../" ++ "css/style.css",
                           JSPath := nCopies nestingDepth "../" ++ "js/script.js" }
      else none
    | none => none
  match blogBranch with
  | some c => c
  | none =>
    { config with CSSPath := adjustOnePath config.CSSPath depth,
                  JSPath := adjustOnePath config.JSPath depth }

/-- Segment-level model of `filepath.Rel` on clean absolute paths: drop
the common prefix, then one `".."` per remaining base segment followed by
the remaining target segments. -/
def relSegments : List (List Char) → List (List Char) → List (List Char)
  | b :: bs, t :: ts =>
    if b = t then relSegments bs ts
    else List.replicate (bs.length + 1) "..".data ++ (t :: ts)
  | [], ts => ts
  | bs, [] => List.replicate bs.length "..".data

/-- The non-empty `'/'`-separated segments of a path. -/
def pathSegments (s : String) : List (List Char) :=
  (splitOnChar '/' s.data).filter (fun c => c ≠ [])

/-- Model of `filepath.Rel base target` for clean absolute paths
(the result is `"."` exactly when the paths coincide). -/
def filepathRel (base target : String) : String :=
  let r := relSegments (pathSegments base) (pathSegments target)
  if r = [] then "." else ⟨joinPieces "/".data r⟩

/-- The absolute path with the given non-empty `'/'`-free segments. -/
def mkAbsPath (segs : List (List Char)) : String :=
  ⟨'/' :: joinPieces "/".data segs⟩

/-- Embedding of `calculatePathDepth` (`paths.go:92-187`).
`filepath.Abs` is the identity on the clean absolute inputs this model
assumes, `filepath.Rel` of two absolute paths cannot fail on Linux (the
string-manipulation fallback branch is dead), and the
`runtime.GOOS == "windows"` re-split is skipped.  After the generic
segment count, a path containing `"blog/"` with a non-empty remainder
after the first occurrence overrides the result with the number of
segments following `"blog"`. -/
def calculatePathDepth (inputDir inputRoot : String) : Nat :=
  if inputDir = inputRoot then 0
  else
    let relPath := filepathRel inputRoot inputDir
    if relPath = "." then 0
    else
      let components := splitOnChar '/' relPath.data
      let nonEmptyComponents := components.filter (fun c => c ≠ [])
      let depth := nonEmptyComponents.length
      if goContains inputDir "blog/" then
        match secondPiece "blog/".data inputDir.data with
        | some s1 =>
          if s1 ≠ [] then
            let subSegments := splitOnChar '/' s1
            let nonEmptySub := (subSegments.filter (fun c => c ≠ [])).length
            if nonEmptySub > 0 then (if nonEmptySub = 1 then 1 else nonEmptySub) else depth
          else depth
        | none => depth
      else depth

/-! ## File conversion (`files.go`) -/

/-- Model of `filepath.Ext` for a bare file name (no separators): the
suffix starting at the final dot, `""` when there is none. -/
def goExt (baseName : String) : String :=
  let pieces := splitOnChar '.' baseName.data
  if pieces.length ≤ 1 then "" else ⟨'.' :: pieces.getLastD []⟩

/-- `strings.TrimSuffix(baseName, filepath.Ext(baseName))`: the file name
without its extension, as computed in `ConvertFile` (`files.go:177-178`)
and `processFiles` (`files.go:642`). -/
def stripExtension (baseName : String) : String :=
  goTrimSuf baseName (goExt baseName)

/-- The resolved page title of `ConvertFile` (`files.go:176-202`) and of
the post entry in `processFiles` (`files.go:642-650`), both of which keep
the original base name (spaces included) as `displayTitle` and fall back
to it when the front-matter `Title` is empty. -/
def resolveTitle (metaTitle baseName : String) : String :=
  let fileNameWithoutExt := stripExtension baseName
  let displayTitle := fileNameWithoutExt
  if metaTitle = "" then displayTitle else metaTitle

/-- The resolved title as the spec sentence describes it
("front-matter, else filename with spaces turned to hyphens") — a
claim-side definition for comparison with `resolveTitle`. -/
def resolveTitleClaim (metaTitle baseName : String) : String :=
  if metaTitle = "" then goReplaceAllChar (stripExtension baseName) ' ' "-" else metaTitle

/-- The output file name built by `ConvertFile` (`files.go:178-185`) and
the post `Link` built by `processFiles` (`files.go:642-646,717`): the base
name without extension, spaces replaced by hyphens, plus `".html"`. -/
def outputFileName (baseName : String) : String :=
  goReplaceAllChar (stripExtension baseName) ' ' "-" ++ ".html"

/-- `filepath.Join(config.OutputDir, fileNameWithoutExt+".html")`
(`files.go:185`), modelled for a clean non-empty output directory. -/
def convertFileOutputFile (outputDir baseName : String) : String :=
  outputDir ++ "/" ++ outputFileName baseName

/-- The `Link` field of the `BlogPost` literal in `processFiles`
(`files.go:717`). -/
def processFilesPostLink (baseName : String) : String :=
  outputFileName baseName

/-- The asset-path part of the configuration `ConvertDirectory`
(`files.go:360-493`) uses for the directory it was invoked on: the
output path's components are scanned for `"blog"`; a first-level
category prefixes two `"../"`, the blog root one, deeper nesting
`len(blogComponents)-1`; non-blog directories go through `adjustPaths`
with the generic depth. -/
def convertDirectoryAssetConfig (config : Config) (currentDepth : Nat) : Config :=
  let outComponents := goSplitSlash config.OutputDir
  match findFirstIdx "blog" outComponents with
  | some blogIndex =>
    let blogComponents := outComponents.drop blogIndex
    if blogComponents.length = 2 then
      { config with CSSPath := prependPathPrefix config.CSSPath 2,
                    JSPath := prependPathPrefix config.JSPath 2,
                    Recursive := config.Recursive || config.GenerateRSS }
    else if blogComponents.length = 1 then
      { config with CSSPath := prependPathPrefix config.CSSPath 1,
                    JSPath := prependPathPrefix config.JSPath 1,
                    Recursive := true }
    else
      let nestingDepth := blogComponents.length - 1
      { config with CSSPath := prependPathPrefix config.CSSPath nestingDepth,
                    JSPath := prependPathPrefix config.JSPath nestingDepth,
                    Recursive := config.Recursive || config.GenerateRSS }
  | none => adjustPaths config currentDepth config.OutputDir

/-- The configuration the recursive subdirectory branch of `processFiles`
(`files.go:540-569`) builds for a subdirectory with output directory
`subOutputDir`: inside a blog path the asset prefix is
`len(subOutComponents) - subBlogIndex` copies of `"../"` (counting the
`"blog"` component itself), otherwise `adjustPaths` at `depth+1`. -/
def processFilesSubdirConfig (config : Config) (subOutputDir : String) (depth : Nat) : Config :=
  let subConfig := { config with OutputDir := subOutputDir }
  let subOutComponents := goSplitSlash subOutputDir
  match findFirstIdx "blog" subOutComponents with
  | some subBlogIndex =>
    let blogDepth := subOutComponents.length - subBlogIndex
    { subConfig with CSSPath := prependPathPrefix config.CSSPath blogDepth,
                     JSPath := prependPathPrefix config.JSPath blogDepth }
  | none => adjustPaths subConfig (depth + 1) subOutputDir

/-! ## Dates and index generation (`templates.go`) -/

/-- Day-granularity key of a Go `time.Time` date, monotone in
(year, month, day). -/
def dateKey (y m d : Nat) : Nat := y * 10000 + m * 100 + d

/-- Key of Go's zero `time.Time` (`0001-01-01`), the value a failed
`time.Parse` leaves behind. -/
def zeroDateKey : Nat := dateKey 1 1 1

def digitVal (c : Char) : Option Nat :=
  if '0' ≤ c ∧ c ≤ '9' then some (c.toNat - '0'.toNat) else none

def isLeapYear (y : Nat) : Bool := (y % 4 = 0 && y % 100 != 0) || y % 400 = 0

def daysInMonth (y m : Nat) : Nat :=
  if m = 2 then (if isLeapYear y then 29 else 28)
  else if m = 4 ∨ m = 6 ∨ m = 9 ∨ m = 11 then 30
  else 31

/-- Model of `time.Parse("2006-01-02", s)` at day granularity: exactly
ten characters `dddd-dd-dd`, month and day within range. -/
def parseDateKey (s : String) : Option Nat :=
  match s.data with
  | [y1, y2, y3, y4, h1, m1, m2, h2, d1, d2] =>
    if h1 = '-' ∧ h2 = '-' then
      match digitVal y1, digitVal y2, digitVal y3, digitVal y4,
            digitVal m1, digitVal m2, digitVal d1, digitVal d2 with
      | some a, some b, some c, some d, some e, some f, some g, some k =>
        let y := ((a * 10 + b) * 10 + c) * 10 + d
        let m := e * 10 + f
        let dd := g * 10 + k
        if 1 ≤ m ∧ m ≤ 12 ∧ 1 ≤ dd ∧ dd ≤ daysInMonth y m then some (dateKey y m dd)
        else none
      | _, _, _, _, _, _, _, _ => none
    else none
  | _ => none

/-- The Git date map entry of `generateIndex` (`templates.go:55-68`):
posts with an empty `FilePath` get no entry, otherwise the repository
oracle `git` answers (it answers `none` for files without history and
when the repository could not be opened). -/
def gitDateFor (git : String → Option Nat) (p : BlogPost) : Option Nat :=
  if p.FilePath = "" then none else git p.FilePath

/-- The date a post is ordered by in `generateIndex` (`templates.go:70-88`):
the Git commit date when available, else the parsed front-matter date,
a failed parse yielding Go's zero time. -/
def postSortKey (git : String → Option Nat) (p : BlogPost) : Nat :=
  match gitDateFor git p with
  | some t => t
  | none => (parseDateKey p.Date).getD zeroDateKey

/-- `sort.Slice` comparator for posts, as a total order ("`i` before `j`"
when `i`'s date is not before `j`'s): newest first. -/
def postLe (git : String → Option Nat) (a b : BlogPost) : Bool :=
  decide (postSortKey git b ≤ postSortKey git a)

/-- `sort.Slice` comparator for subdirectories: alphabetical by name
(`subdirectories[i].Name < subdirectories[j].Name`), as a total order. -/
def dirLe (a b : Directory) : Bool := !(lexLt b.Name.data a.Name.data)

/-- Insertion into a sorted list, used to realize the `sort.Slice`
contract (sorted permutation) executably. -/
def insertLe {α : Type} (le : α → α → Bool) (x : α) : List α → List α
  | [] => [x]
  | y :: ys => if le x y then x :: y :: ys else y :: insertLe le x ys

/-- Insertion sort: the model of `sort.Slice` (whose contract is a
permutation of the input that is sorted for the comparator). -/
def insSort {α : Type} (le : α → α → Bool) : List α → List α
  | [] => []
  | x :: xs => insertLe le x (insSort le xs)

/-- The search-index entries `generateSearchIndex` (`templates.go:138-149`)
derives from the post list. -/
def searchEntries (posts : List BlogPost) : List SearchIndexEntry :=
  posts.map (fun p => ⟨p.Title, p.Link, p.Description, p.Content, p.Date⟩)

/-- Embedding of `generateIndex` (`templates.go:37-135`): subdirectories
sorted alphabetically, posts sorted newest first by Git date with
front-matter fallback, and the index page plus search index written
(`some`) only when there is at least one post or subdirectory — an empty
directory produces nothing (`none`). -/
def generateIndexArtifact (git : String → Option Nat) (blogPosts : List BlogPost)
    (subdirectories : List Directory) (folderName cssPath jsPath backURL : String) :
    Option (IndexData × List SearchIndexEntry) :=
  let sortedDirs := insSort dirLe subdirectories
  let sortedPosts := if blogPosts.length > 0 then insSort (postLe git) blogPosts else blogPosts
  if sortedPosts.length > 0 || sortedDirs.length > 0 then
    some ({ Title := folderName, CSSPath := cssPath, JSPath := jsPath,
            Posts := sortedPosts, Directories := sortedDirs, BackURL := backURL,
            HasDirectories := sortedDirs.length > 0, URL := backURL, Image := "" },
          searchEntries sortedPosts)
  else none

/-! ## RSS feed (`src/unnamed/part_007:49-260`, identical to
`converter.go:762-952` for the functions embedded here) -/

/-- The domain extraction inside `formatAuthorAsEmail`: strip the
protocol, then cut at the first `"/"`. -/
def extractDomain (siteURL : String) : String :=
  let url := goTrimPre (goTrimPre siteURL "http://") "https://"
  match findOcc "/".data url.data with
  | some (pre, _) => ⟨pre⟩
  | none => url

/-- Embedding of `formatAuthorAsEmail` (`part_007:49-77`): empty author
names yield `""`; otherwise `email (Name)` where the email is the
lowercased author name with spaces replaced by dots, at the domain
extracted from the site URL — `example.com` when the site URL is empty
or when the extraction leaves nothing. -/
def formatAuthorAsEmail (authorName siteURL : String) : String :=
  if authorName = "" then ""
  else
    let domain :=
      if siteURL ≠ "" then
        let url := extractDomain siteURL
        if url ≠ "" then url else "example.com"
      else "example.com"
    let emailName := goToLower (goReplaceAllChar authorName ' ' ".")
    emailName ++ "@" ++ domain ++ " (" ++ authorName ++ ")"

/-- The author field as the claim describes it: the synthesized email at
the domain extracted from the site URL, with the `example.com` fallback
only when no site URL is configured — a claim-side definition for
comparison with `formatAuthorAsEmail`. -/
def formatAuthorAsEmailClaim (authorName siteURL : String) : String :=
  if authorName = "" then ""
  else
    let domain := if siteURL = "" then "example.com" else extractDomain siteURL
    goToLower (goReplaceAllChar authorName ' ' ".") ++ "@" ++ domain ++ " (" ++ authorName ++ ")"

/-- Embedding of `RSSItem` (`part_007:39-47`); the `pubDate` string is
kept as the day key handed to the RFC-1123 renderer (`time.Format`,
external), `none` when a non-empty date fails to parse. -/
structure RSSItem where
  Title : String
  Link : String
  Description : String
  PubDateKey : Option Nat
  Author : String
  GUID : String
deriving DecidableEq

/-- Embedding of the RSS channel data (`part_007:203-215`); the last
build date is kept as the day key of the build instant. -/
structure RSSChannelData where
  Title : String
  Link : String
  Description : String
  Language : String
  LastBuildDateKey : Nat
  AtomLink : Option String
  Items : List RSSItem
deriving DecidableEq

/-- The `sort.Slice` comparator of `generateRSSFeed` (`part_007:87-96`):
`false` whenever either date fails to parse, otherwise newest first. -/
def rssLess (a b : BlogPost) : Bool :=
  match parseDateKey a.Date, parseDateKey b.Date with
  | some ka, some kb => decide (kb < ka)
  | _, _ => false

/-- One feed item (`part_007:98-152`): pub date from the post date (the
build instant `now` when the date is empty), the link absolutized
against the site URL, the GUID falling back to the directory-local link,
and the author synthesized via `formatAuthorAsEmail` with the
`DefaultAuthor` fallback. -/
def rssItem (config : Config) (now : Nat) (post : BlogPost) : RSSItem :=
  let pubDateKey := if post.Date ≠ "" then parseDateKey post.Date else some now
  let fullURL0 := if post.FullURL = "" then post.Link else post.FullURL
  let fullURL :=
    if config.SiteURL ≠ "" ∧ goHasPre fullURL0 "http" = false then
      let siteURL := goTrimSuf config.SiteURL "/"
      if goHasPre fullURL0 "/" then siteURL ++ fullURL0 else siteURL ++ "/" ++ fullURL0
    else fullURL0
  let guid := if fullURL = "" then post.Link else fullURL
  let authorName := if post.Author = "" then config.DefaultAuthor else post.Author
  { Title := post.Title, Link := fullURL, Description := post.Description,
    PubDateKey := pubDateKey,
    Author := if authorName ≠ "" then formatAuthorAsEmail authorName config.SiteURL else "",
    GUID := guid }

/-- The `atom:link` self reference of the feed (`part_007:155-193`). -/
def rssAtomLink (config : Config) (outputDir : String) : Option String :=
  if config.SiteURL ≠ "" then
    let outComponents := goSplitSlash outputDir
    match findFirstIdx "blog" outComponents with
    | some blogIdx =>
      let afterBlog := outComponents.drop (blogIdx + 1)
      if afterBlog.isEmpty then
        some (goTrimSuf config.SiteURL "/" ++ "/blog/feed.xml")
      else
        some (goTrimSuf config.SiteURL "/" ++ "/blog/" ++
              (⟨joinPieces "/".data (afterBlog.map String.data)⟩ : String) ++ "/feed.xml")
    | none =>
      some (goTrimSuf config.SiteURL "/" ++ "/" ++ outputDir ++ "/feed.xml")
  else none

/-- Embedding of `generateRSSFeed` (`part_007:80-260`): `none` (nothing
written) when feed generation is disabled or the post list is empty;
otherwise the channel with the sorted items. -/
def generateRSSFeedArtifact (blogPosts : List BlogPost) (config : Config)
    (outputDir : String) (now : Nat) : Option RSSChannelData :=
  if !config.GenerateRSS || blogPosts.length = 0 then none
  else
    let sortedPosts := insSort (fun a b => !(rssLess b a)) blogPosts
    some { Title := config.SiteTitle, Link := config.SiteURL,
           Description := "Blog posts from " ++ config.SiteTitle,
           Language := "en-us", LastBuildDateKey := now,
           AtomLink := rssAtomLink config outputDir,
           Items := sortedPosts.map (rssItem config now) }

/-! ## Tag aggregation (`src/unnamed/part_007:408-426`) -/

/-- The map update both statements of the `collectTags` loop body perform
on `tagMap[tag]`: create the entry with count 0 when absent, then bump
the count and append the post. -/
def bumpTag (p : BlogPost) (t : String) : List TagInfo → List TagInfo
  | [] => [⟨t, 1, [p]⟩]
  | info :: rest =>
    if info.Name = t then
      { info with Count := info.Count + 1, Posts := info.Posts ++ [p] } :: rest
    else info :: bumpTag p t rest

/-- Embedding of `collectTags`: fold over the posts in input order, and
over each post's tags in order, bumping the tag map.  The Go map is
modelled as an association list keyed by `Name`. -/
def collectTags (posts : List BlogPost) : List TagInfo :=
  posts.foldl (fun m p => p.Tags.foldl (fun m t => bumpTag p t m) m) []

/-- Lookup `tagMap[tag]` in the association-list model. -/
def lookupTag : List TagInfo → String → Option TagInfo
  | [], _ => none
  | info :: rest, t => if info.Name = t then some info else lookupTag rest t

/-- The posts carrying tag `t`, in input order, once per occurrence of
the tag on the post — the specification-side description of a tag's
post list. -/
def tagOccurrences (posts : List BlogPost) (t : String) : List BlogPost :=
  posts.flatMap (fun p => (p.Tags.filter (fun x => x = t)).map (fun _ => p))

/-- Combination step used to state the `collectTags` fold invariant. -/
def extendInfo (o : Option TagInfo) (t : String) (ps : List BlogPost) : Option TagInfo :=
  match o with
  | some info => some { info with Count := info.Count + ps.length, Posts := info.Posts ++ ps }
  | none => if ps.isEmpty then none else some ⟨t, ps.length, ps⟩

/-! ## Concrete fixtures for evaluation -/

/-- A configuration with every field empty, the base for concrete
test configurations. -/
def emptyConfig : Config :=
  { TemplateFile := "", OutputDir := "", CSSPath := "", JSPath := "",
    SiteTitle := "", DefaultAuthor := "", GenerateList := false,
    Recursive := false, GenerateRSS := false, SiteURL := "",
    GitWebURL := "", ShowCommitInfo := false, DefaultTheme := "" }

/-- The build's configuration shape (Makefile): assets `css/style.css`
and `js/script.js`, output under `dist`, here aimed at a nested blog
directory. -/
def cfgNested : Config :=
  { emptyConfig with OutputDir := "dist/blog/X/Y",
                     CSSPath := "css/style.css", JSPath := "js/script.js" }

/-- The build's configuration aimed at the blog category
`dist/blog/Linux`. -/
def cfgCategory : Config :=
  { emptyConfig with OutputDir := "dist/blog/Linux",
                     CSSPath := "css/style.css", JSPath := "js/script.js" }

/-- A post with every field empty, the base for concrete posts. -/
def emptyPost : BlogPost :=
  { Title := "", Link := "", Description := "", Date := "", FullURL := "",
    Author := "", Content := "", FilePath := "", CommitHash := "",
    CommitDate := "", CommitAuthor := "", CommitURL := "", ReadTime := "",
    Tags := [] }

/-- A newer post (front-matter date only). -/
def postNew : BlogPost :=
  { emptyPost with Title := "New", Link := "new.html", Date := "2024-05-01" }

/-- An older post (front-matter date only). -/
def postOld : BlogPost :=
  { emptyPost with Title := "Old", Link := "old.html", Date := "2023-01-02" }

/-- A post with an unparsable date. -/
def postBadDate : BlogPost :=
  { emptyPost with Title := "Bad", Link := "bad.html", Date := "yesterday" }

/-! ## Lemmas about the string primitives -/

theorem splitOnChar_ne_nil (sep : Char) (l : List Char) : splitOnChar sep l ≠ [] := by
  induction l with
  | nil => simp [splitOnChar]
  | cons a rest ih =>
    simp only [splitOnChar]
    split
    · simp
    · cases h : splitOnChar sep rest with
      | nil => simp
      | cons p ps => simp

theorem splitOnChar_not_mem {sep : Char} {l : List Char} (h : sep ∉ l) :
    splitOnChar sep l = [l] := by
  induction l with
  | nil => rfl
  | cons a rest ih =>
    have ha : ¬ a = sep := fun he => h (he ▸ List.mem_cons_self a rest)
    have hr : sep ∉ rest := fun hm => h (List.mem_cons_of_mem _ hm)
    simp [splitOnChar, ha, ih hr]

theorem splitOnChar_append {sep : Char} {a : List Char} (b : List Char) (h : sep ∉ a) :
    splitOnChar sep (a ++ sep :: b) = a :: splitOnChar sep b := by
  induction a with
  | nil => simp [splitOnChar]
  | cons x xs ih =>
    have hx : ¬ x = sep := fun he => h (he ▸ List.mem_cons_self x xs)
    have hxs : sep ∉ xs := fun hm => h (List.mem_cons_of_mem _ hm)
    rw [List.cons_append, splitOnChar, if_neg hx, ih hxs]

theorem splitOnChar_joinPieces {sep : Char} :
    ∀ {segs : List (List Char)}, segs ≠ [] → (∀ s ∈ segs, sep ∉ s) →
    splitOnChar sep (joinPieces [sep] segs) = segs := by
  intro segs
  induction segs with
  | nil => intro h; exact absurd rfl h
  | cons s rest ih =>
    intro _ hall
    cases rest with
    | nil => exact splitOnChar_not_mem (hall s (by simp))
    | cons t ts =>
      have hj : joinPieces [sep] (s :: t :: ts) = s ++ sep :: joinPieces [sep] (t :: ts) := by
        simp [joinPieces]
      rw [hj, splitOnChar_append _ (hall s (by simp)),
          ih (by simp) (fun x hx => hall x (List.mem_cons_of_mem _ hx))]

theorem not_mem_of_mem_splitOnChar {sep : Char} :
    ∀ {l p : List Char}, p ∈ splitOnChar sep l → sep ∉ p := by
  intro l
  induction l with
  | nil =>
    intro p hp
    have hp' : p = [] := by simpa [splitOnChar] using hp
    simp [hp']
  | cons a rest ih =>
    intro p hp
    by_cases ha : a = sep
    · rw [splitOnChar, if_pos ha] at hp
      rcases List.mem_cons.mp hp with hp0 | hp
      · simp [hp0]
      · exact ih hp
    · cases hs : splitOnChar sep rest with
      | nil => exact absurd hs (splitOnChar_ne_nil sep rest)
      | cons q qs =>
        rw [splitOnChar, if_neg ha, hs] at hp
        rcases List.mem_cons.mp hp with hp0 | hp
        · intro hm
          rw [hp0] at hm
          rcases List.mem_cons.mp hm with he | hm'
          · exact ha he.symm
          · exact ih (hs ▸ List.mem_cons_self q qs) hm'
        · exact ih (hs ▸ List.mem_cons_of_mem q hp)

theorem joinPieces_append {sep : List Char} :
    ∀ {l1 l2 : List (List Char)}, l1 ≠ [] → l2 ≠ [] →
    joinPieces sep (l1 ++ l2) = joinPieces sep l1 ++ sep ++ joinPieces sep l2 := by
  intro l1
  induction l1 with
  | nil => intro l2 h _; exact absurd rfl h
  | cons p ps ih =>
    intro l2 _ h2
    cases ps with
    | nil =>
      cases l2 with
      | nil => exact absurd rfl h2
      | cons q qs => simp [joinPieces]
    | cons r rs =>
      have : (p :: r :: rs) ++ l2 = p :: ((r :: rs) ++ l2) := by simp
      rw [this]
      have hcons : ∀ z zs, joinPieces sep (p :: z :: zs) =
          p ++ sep ++ joinPieces sep (z :: zs) := fun z zs => rfl
      cases hrl : (r :: rs) ++ l2 with
      | nil => simp at hrl
      | cons w ws =>
        rw [hcons w ws, ← hrl, ih (by simp) h2, hcons r rs]
        simp [List.append_assoc]

theorem mem_joinPieces {sep : List Char} {c : Char} :
    ∀ {ps : List (List Char)}, c ∈ joinPieces sep ps → c ∈ sep ∨ ∃ p ∈ ps, c ∈ p := by
  intro ps
  induction ps with
  | nil => intro h; simp [joinPieces] at h
  | cons p rest ih =>
    cases rest with
    | nil =>
      intro h
      exact Or.inr ⟨p, by simp, h⟩
    | cons q qs =>
      intro h
      have : joinPieces sep (p :: q :: qs) = p ++ sep ++ joinPieces sep (q :: qs) := rfl
      rw [this] at h
      rcases List.mem_append.mp h with h1 | h2
      · rcases List.mem_append.mp h1 with hp | hsep
        · exact Or.inr ⟨p, by simp, hp⟩
        · exact Or.inl hsep
      · rcases ih h2 with hsep | ⟨x, hx, hcx⟩
        · exact Or.inl hsep
        · exact Or.inr ⟨x, List.mem_cons_of_mem _ hx, hcx⟩

theorem findOcc_eq_some {sep : List Char} :
    ∀ {s pre post : List Char}, findOcc sep s = some (pre, post) →
    s = pre ++ sep ++ post := by
  intro s
  induction s with
  | nil => intro pre post h; simp [findOcc] at h
  | cons c rest ih =>
    intro pre post h
    rw [findOcc] at h
    split at h
    · rename_i hpre
      obtain ⟨t, ht⟩ := List.isPrefixOf_iff_prefix.mp hpre
      have hdrop : (c :: rest).drop sep.length = t := by
        rw [← ht, List.drop_left]
      rw [hdrop] at h
      simp only [Option.some.injEq, Prod.mk.injEq] at h
      obtain ⟨h1, h2⟩ := h
      rw [← h1, ← h2, ← ht]
      simp
    · cases hf : findOcc sep rest with
      | none => rw [hf] at h; exact absurd h (by simp)
      | some pp =>
        obtain ⟨pre', post'⟩ := pp
        rw [hf] at h
        simp only [Option.some.injEq, Prod.mk.injEq] at h
        obtain ⟨h1, h2⟩ := h
        rw [← h1, ← h2, List.cons_append, List.cons_append, ← ih hf]

theorem findOcc_eq_none_of_no_occurrence {sep s : List Char} (h : ¬ sep <:+: s) :
    findOcc sep s = none := by
  cases hf : findOcc sep s with
  | none => rfl
  | some pp =>
    obtain ⟨pre, post⟩ := pp
    exact absurd (findOcc_eq_some hf ▸ List.infix_append pre sep post) h

theorem findOcc_boundary {c0 : Char} {cs : List Char} :
    ∀ {a : List Char} (b : List Char),
    ¬ ((c0 :: cs) <:+: (a ++ (c0 :: cs).dropLast)) →
    findOcc (c0 :: cs) (a ++ (c0 :: cs) ++ b) = some (a, b) := by
  intro a
  induction a with
  | nil =>
    intro b _
    have hs : ([] : List Char) ++ (c0 :: cs) ++ b = c0 :: (cs ++ b) := by simp
    rw [hs, findOcc]
    have hpre : (c0 :: cs).isPrefixOf (c0 :: (cs ++ b)) = true :=
      List.isPrefixOf_iff_prefix.mpr ⟨b, by simp⟩
    rw [if_pos hpre]
    have hdrop : (c0 :: (cs ++ b)).drop (c0 :: cs).length = b := by
      have : c0 :: (cs ++ b) = (c0 :: cs) ++ b := by simp
      rw [this, List.drop_left]
    rw [hdrop]
  | cons x xs ih =>
    intro b hno
    have hs : (x :: xs) ++ (c0 :: cs) ++ b = x :: (xs ++ (c0 :: cs) ++ b) := by simp
    rw [hs, findOcc]
    have hlast : (c0 :: cs).dropLast ++ [(c0 :: cs).getLast (by simp)] = c0 :: cs :=
      List.dropLast_append_getLast (by simp)
    have hnpre : ¬ ((c0 :: cs).isPrefixOf (x :: (xs ++ (c0 :: cs) ++ b)) = true) := by
      intro hpre
      have hpfx : (c0 :: cs) <+: ((x :: xs) ++ (c0 :: cs).dropLast) := by
        have h1 : (c0 :: cs) <+: (x :: (xs ++ (c0 :: cs) ++ b)) :=
          List.isPrefixOf_iff_prefix.mp hpre
        have h2 : ((x :: xs) ++ (c0 :: cs).dropLast) <+:
            (x :: (xs ++ (c0 :: cs) ++ b)) := by
          refine ⟨[(c0 :: cs).getLast (by simp)] ++ b, ?_⟩
          rw [← hs]
          calc (x :: xs) ++ (c0 :: cs).dropLast ++ ([(c0 :: cs).getLast (by simp)] ++ b)
              = (x :: xs) ++ ((c0 :: cs).dropLast ++ [(c0 :: cs).getLast (by simp)]) ++ b := by
                simp [List.append_assoc]
            _ = (x :: xs) ++ (c0 :: cs) ++ b := by rw [hlast]
        refine List.prefix_of_prefix_length_le h1 h2 ?_
        have : (c0 :: cs).dropLast.length = cs.length := by simp
        simp [this]
      exact hno hpfx.isInfix
    rw [if_neg hnpre]
    have hno' : ¬ ((c0 :: cs) <:+: (xs ++ (c0 :: cs).dropLast)) := by
      intro hinf
      apply hno
      obtain ⟨s, t, hst⟩ := hinf
      refine ⟨x :: s, t, ?_⟩
      rw [List.cons_append, List.cons_append, hst]
      rfl
    rw [ih b hno']

theorem findFirstIdx_append {t : String} :
    ∀ {pre : List String} (post : List String), t ∉ pre →
    findFirstIdx t (pre ++ t :: post) = some pre.length := by
  intro pre
  induction pre with
  | nil => intro post _; simp [findFirstIdx]
  | cons x xs ih =>
    intro post h
    have hx : ¬ x = t := fun he => h (he ▸ List.mem_cons_self x xs)
    have hxs : t ∉ xs := fun hm => h (List.mem_cons_of_mem _ hm)
    rw [List.cons_append, findFirstIdx, if_neg hx, ih post hxs]
    simp

theorem lexLt_asymm : ∀ {a b : List Char}, lexLt a b = true → lexLt b a = false := by
  intro a
  induction a with
  | nil =>
    intro b h
    cases b with
    | nil => simp [lexLt] at h
    | cons y ys => simp [lexLt]
  | cons x xs ih =>
    intro b h
    cases b with
    | nil => simp [lexLt] at h
    | cons y ys =>
      rw [lexLt] at h ⊢
      by_cases hxy : x < y
      · rw [if_neg (lt_asymm hxy), if_pos hxy]
      · rw [if_neg hxy] at h
        by_cases hyx : y < x
        · rw [if_pos hyx] at h
          exact absurd h (by simp)
        · rw [if_neg hyx] at h
          rw [if_neg hyx, if_neg hxy]
          exact ih h

theorem lexLt_not_lt_trans :
    ∀ {a b c : List Char}, lexLt b a = false → lexLt c b = false → lexLt c a = false := by
  intro a
  induction a with
  | nil =>
    intro b c h1 h2
    cases c with
    | nil => rfl
    | cons z zs => rfl
  | cons x xs ih =>
    intro b c h1 h2
    cases b with
    | nil => simp [lexLt] at h1
    | cons y ys =>
      cases c with
      | nil => simp [lexLt] at h2
      | cons z zs =>
        rw [lexLt] at h1 h2 ⊢
        by_cases hyx : y < x
        · rw [if_pos hyx] at h1; exact absurd h1 (by simp)
        · rw [if_neg hyx] at h1
          by_cases hzy : z < y
          · rw [if_pos hzy] at h2; exact absurd h2 (by simp)
          · rw [if_neg hzy] at h2
            have hx_le_y : x ≤ y := le_of_not_lt hyx
            have hy_le_z : y ≤ z := le_of_not_lt hzy
            have hnzx : ¬ z < x := not_lt.mpr (hx_le_y.trans hy_le_z)
            rw [if_neg hnzx]
            by_cases hxz : x < z
            · rw [if_pos hxz]
            · rw [if_neg hxz]
              have hxz' : x = z := le_antisymm (hx_le_y.trans hy_le_z) (le_of_not_lt hxz)
              have hy_le_x : y ≤ x := by rw [hxz']; exact hy_le_z
              have hxy' : x = y := le_antisymm hx_le_y hy_le_x
              have hnxy : ¬ x < y := by rw [hxy']; exact lt_irrefl y
              have hnyz : ¬ y < z := by rw [← hxy', hxz']; exact lt_irrefl z
              rw [if_neg hnxy] at h1
              rw [if_neg hnyz] at h2
              exact ih h1 h2

theorem insertLe_perm {α : Type} (le : α → α → Bool) (x : α) :
    ∀ l : List α, (insertLe le x l).Perm (x :: l) := by
  intro l
  induction l with
  | nil => simp [insertLe]
  | cons y ys ih =>
    rw [insertLe]
    by_cases h : le x y = true
    · rw [if_pos h]
    · rw [if_neg h]
      exact (List.Perm.cons y ih).trans (List.Perm.swap x y ys)

theorem insSort_perm {α : Type} (le : α → α → Bool) :
    ∀ l : List α, (insSort le l).Perm l := by
  intro l
  induction l with
  | nil => simp [insSort]
  | cons x xs ih =>
    rw [insSort]
    exact (insertLe_perm le x (insSort le xs)).trans (List.Perm.cons x ih)

theorem insertLe_pairwise {α : Type} {le : α → α → Bool}
    (total : ∀ a b, le a b = false → le b a = true)
    (htrans : ∀ a b c, le a b = true → le b c = true → le a c = true) (x : α) :
    ∀ {l : List α}, l.Pairwise (fun a b => le a b = true) →
    (insertLe le x l).Pairwise (fun a b => le a b = true) := by
  intro l
  induction l with
  | nil => intro _; simp [insertLe]
  | cons y ys ih =>
    intro hl
    obtain ⟨hy, hys⟩ := List.pairwise_cons.mp hl
    rw [insertLe]
    by_cases h : le x y = true
    · rw [if_pos h]
      refine List.pairwise_cons.mpr ⟨?_, hl⟩
      intro z hz
      rcases List.mem_cons.mp hz with hz0 | hz1
      · rw [hz0]; exact h
      · exact htrans x y z h (hy z hz1)
    · rw [if_neg h]
      refine List.pairwise_cons.mpr ⟨?_, ih hys⟩
      intro z hz
      have hz' : z ∈ x :: ys := (insertLe_perm le x ys).mem_iff.mp hz
      rcases List.mem_cons.mp hz' with hz0 | hz1
      · rw [hz0]
        exact total x y (Bool.not_eq_true (le x y) ▸ h)
      · exact hy z hz1

theorem insSort_pairwise {α : Type} {le : α → α → Bool}
    (total : ∀ a b, le a b = false → le b a = true)
    (htrans : ∀ a b c, le a b = true → le b c = true → le a c = true) :
    ∀ l : List α, (insSort le l).Pairwise (fun a b => le a b = true) := by
  intro l
  induction l with
  | nil => simp [insSort]
  | cons x xs ih => exact insertLe_pairwise total htrans x ih

theorem prependPathPrefix_eq {p : String} (h1 : goHasPre p "http" = false)
    (h2 : goHasPre p "/" = false) (n : Nat) :
    prependPathPrefix p n = nCopies n "../" ++ p := by
  simp [prependPathPrefix, h1, h2]

theorem relSegments_append : ∀ (l t : List (List Char)), relSegments l (l ++ t) = t := by
  intro l
  induction l with
  | nil =>
    intro t
    cases t <;> rfl
  | cons x xs ih =>
    intro t
    rw [List.cons_append, relSegments, if_pos rfl, ih]

theorem pathSegments_mkAbsPath {segs : List (List Char)}
    (h : ∀ s ∈ segs, s ≠ [] ∧ '/' ∉ s) :
    pathSegments (mkAbsPath segs) = segs := by
  cases segs with
  | nil => decide
  | cons s rest =>
    have hdata : (mkAbsPath (s :: rest)).data = '/' :: joinPieces ['/'] (s :: rest) := rfl
    rw [pathSegments, hdata, splitOnChar, if_pos rfl,
        splitOnChar_joinPieces (by simp) (fun x hx => (h x hx).2)]
    rw [List.filter_cons]
    simp only [decide_not]
    norm_num
    exact ⟨(h s (by simp)).1, fun a ha => (h a (List.mem_cons_of_mem s ha)).1⟩

theorem goContains_eq_false_of_no_occurrence {s sub : String}
    (h : ¬ sub.data <:+: s.data) : goContains s sub = false := by
  simp [goContains, findOcc_eq_none_of_no_occurrence h]

theorem stringData_append (a b : String) : (a ++ b).data = a.data ++ b.data := by
  cases a; cases b; rfl

/-! ## Lemmas about the tag map -/

theorem extendInfo_nil (o : Option TagInfo) (t : String) : extendInfo o t [] = o := by
  cases o <;> simp [extendInfo]

theorem extendInfo_append (o : Option TagInfo) (t : String) (A B : List BlogPost) :
    extendInfo (extendInfo o t A) t B = extendInfo o t (A ++ B) := by
  cases o with
  | some info => simp [extendInfo, Nat.add_assoc]
  | none =>
    cases A with
    | nil => simp [extendInfo]
    | cons a as =>
      simp [extendInfo]
      omega

theorem lookupTag_bumpTag_ne {p : BlogPost} {t t' : String} (h : t' ≠ t) :
    ∀ m, lookupTag (bumpTag p t' m) t = lookupTag m t := by
  intro m
  induction m with
  | nil => simp [bumpTag, lookupTag, h]
  | cons info rest ih =>
    rw [bumpTag]
    by_cases hn : info.Name = t'
    · rw [if_pos hn]
      have hnt : ¬ info.Name = t := by rw [hn]; exact h
      simp [lookupTag, hnt]
    · rw [if_neg hn, lookupTag, lookupTag]
      split_ifs with hm
      · rfl
      · exact ih

theorem lookupTag_bumpTag_eq (p : BlogPost) (t : String) :
    ∀ m, lookupTag (bumpTag p t m) t =
      (match lookupTag m t with
       | some info => some { info with Count := info.Count + 1, Posts := info.Posts ++ [p] }
       | none => some ⟨t, 1, [p]⟩) := by
  intro m
  induction m with
  | nil => simp [bumpTag, lookupTag]
  | cons info rest ih =>
    rw [bumpTag]
    by_cases hn : info.Name = t
    · rw [if_pos hn]
      simp [lookupTag, hn]
    · rw [if_neg hn, lookupTag, lookupTag, if_neg hn, if_neg hn, ih]

theorem lookupTag_foldl_tags (p : BlogPost) (t : String) :
    ∀ (tags : List String) (m : List TagInfo),
    lookupTag (tags.foldl (fun m t' => bumpTag p t' m) m) t =
      extendInfo (lookupTag m t) t ((tags.filter (fun x => x = t)).map (fun _ => p)) := by
  intro tags
  induction tags with
  | nil => intro m; simp [extendInfo_nil]
  | cons tg tgs ih =>
    intro m
    rw [List.foldl_cons]
    by_cases h : tg = t
    · subst h
      rw [ih, lookupTag_bumpTag_eq]
      rw [List.filter_cons]
      simp only [decide_True, if_true]
      cases hm : lookupTag m tg with
      | none =>
        simp only [List.map_cons]
        cases hocc : (tgs.filter (fun x => x = tg)).map (fun _ => p) with
        | nil => simp [extendInfo]
        | cons q qs => simp [extendInfo, Nat.add_comm]
      | some info =>
        simp [extendInfo, Nat.add_assoc]
        omega
    · rw [ih, lookupTag_bumpTag_ne h, List.filter_cons]
      simp [h]

theorem lookupTag_foldl_posts (t : String) :
    ∀ (posts : List BlogPost) (m : List TagInfo),
    lookupTag (posts.foldl (fun m p => p.Tags.foldl (fun m t' => bumpTag p t' m) m) m) t =
      extendInfo (lookupTag m t) t (tagOccurrences posts t) := by
  intro posts
  induction posts with
  | nil => intro m; simp [tagOccurrences, extendInfo_nil]
  | cons p ps ih =>
    intro m
    rw [List.foldl_cons, ih, lookupTag_foldl_tags, extendInfo_append]
    have : tagOccurrences (p :: ps) t =
        ((p.Tags.filter (fun x => x = t)).map (fun _ => p)) ++ tagOccurrences ps t := by
      simp [tagOccurrences]
    rw [this]

/-! ## Claim theorems -/

/-- C9: `extractMetadata` recognizes a front-matter block only when the
document's first four bytes are exactly `"<!--"`; for every input with
leading whitespace or other text before the comment, or with no closing
`"-->"`, it returns an empty metadata map and the input content
unchanged. -/
theorem extractMetadata_strict_recognition (s : String)
    (h : goHasPre s "<!--" = false ∨ findOcc "-->".data s.data = none) :
    extractMetadata s = ([], s) := by
  rcases h with h | h
  · simp [extractMetadata, h]
  · by_cases hp : goHasPre s "<!--" = true
    · simp [extractMetadata, hp, h]
    · have hp' : goHasPre s "<!--" = false := by
        revert hp; cases goHasPre s "<!--" <;> simp
      simp [extractMetadata, hp']

/-- Witness for C9: a document whose front-matter comment is preceded by
a single space is not recognized — empty metadata, content untouched. -/
theorem extractMetadata_strict_recognition_witness :
    goHasPre " <!-- Title: X -->rest" "<!--" = false ∧
    extractMetadata " <!-- Title: X -->rest" = ([], " <!-- Title: X -->rest") :=
  ⟨by decide, extractMetadata_strict_recognition " <!-- Title: X -->rest" (Or.inl (by decide))⟩

/-- C4 counterexample: with no front-matter `Title`, the code resolves
the title to the base name with its spaces preserved (`displayTitle`),
not to the hyphenated form the claim describes.  Shown on the
repository's own post `How to write a package format.md`. -/
theorem resolved_title_cex :
    resolveTitle "" "How to write a package format.md" = "How to write a package format" ∧
    resolveTitleClaim "" "How to write a package format.md" = "How-to-write-a-package-format" ∧
    resolveTitle "" "How to write a package format.md" ≠
      resolveTitleClaim "" "How to write a package format.md" := by
  refine ⟨?_, ?_, ?_⟩ <;> decide

/-- C4 amended: the resolved page title is the front-matter `Title` when
it is non-empty; otherwise it is the source file's base name without
extension with its spaces preserved (the space-to-hyphen replacement
applies only to the output file name). -/
theorem resolved_title_amended (metaTitle baseName : String) :
    (metaTitle ≠ "" → resolveTitle metaTitle baseName = metaTitle) ∧
    (metaTitle = "" → resolveTitle metaTitle baseName = stripExtension baseName) := by
  constructor
  · intro h; simp [resolveTitle, h]
  · intro h; simp [resolveTitle, h]

/-- Witness for C4 amended: both branches at concrete inputs. -/
theorem resolved_title_amended_witness :
    resolveTitle "Custom" "a b.md" = "Custom" ∧ resolveTitle "" "a b.md" = "a b" := by
  refine ⟨(resolved_title_amended "Custom" "a b.md").1 (by decide), ?_⟩
  rw [(resolved_title_amended "" "a b.md").2 rfl]
  decide

/-- C7 counterexample: for the non-empty site URL `"https://"` the
stripped domain is empty and the code falls back to `example.com`,
while the claim prescribes the (empty) extracted domain. -/
theorem formatAuthorAsEmail_cex :
    formatAuthorAsEmail "Jo Hn" "https://" = "jo.hn@example.com (Jo Hn)" ∧
    formatAuthorAsEmailClaim "Jo Hn" "https://" = "jo.hn@ (Jo Hn)" ∧
    formatAuthorAsEmail "Jo Hn" "https://" ≠ formatAuthorAsEmailClaim "Jo Hn" "https://" := by
  refine ⟨?_, ?_, ?_⟩ <;> decide

/-- C7 amended: an empty author name yields an empty author field;
otherwise the field is `email (Name)` with the email synthesized from
the lowercased, dot-separated author name at the domain extracted from
the site URL — falling back to `example.com` when no site URL is
configured or when the stripped domain is empty. -/
theorem formatAuthorAsEmail_amended (authorName siteURL : String) :
    formatAuthorAsEmail "" siteURL = "" ∧
    (authorName ≠ "" →
      formatAuthorAsEmail authorName siteURL =
        goToLower (goReplaceAllChar authorName ' ' ".") ++ "@" ++
          (if siteURL ≠ "" ∧ extractDomain siteURL ≠ "" then extractDomain siteURL
           else "example.com") ++ " (" ++ authorName ++ ")") := by
  constructor
  · simp [formatAuthorAsEmail]
  · intro h
    rw [formatAuthorAsEmail, if_neg h]
    by_cases hs : siteURL = ""
    · simp [hs]
    · by_cases hd : extractDomain siteURL = ""
      · simp [hs, hd]
      · simp [hs, hd]

/-- Witness for C7 amended: the repository's own site URL. -/
theorem formatAuthorAsEmail_amended_witness :
    formatAuthorAsEmail "Kreato Dev" "https://krea.to" = "kreato.dev@krea.to (Kreato Dev)" := by
  rw [(formatAuthorAsEmail_amended "Kreato Dev" "https://krea.to").2 (by decide)]
  decide

/-- C8: the output HTML file name and the post `Link` are the source base
name without extension, every space replaced by a hyphen, plus `".html"`,
placed in the configured output directory — so the file-name component
never contains a space. -/
theorem output_filename_spaces_hyphenated (outputDir baseName : String) :
    convertFileOutputFile outputDir baseName =
      outputDir ++ "/" ++ processFilesPostLink baseName ∧
    processFilesPostLink baseName =
      goReplaceAllChar (stripExtension baseName) ' ' "-" ++ ".html" ∧
    ' ' ∉ (processFilesPostLink baseName).data := by
  refine ⟨rfl, rfl, ?_⟩
  intro hmem
  have hdata : (processFilesPostLink baseName).data =
      joinPieces "-".data (splitOnChar ' ' (stripExtension baseName).data) ++ ".html".data := by
    rw [processFilesPostLink, outputFileName, stringData_append]
    rfl
  rw [hdata] at hmem
  rcases List.mem_append.mp hmem with h1 | h2
  · rcases mem_joinPieces h1 with hsep | ⟨p, hp, hcp⟩
    · exact absurd hsep (by decide)
    · exact not_mem_of_mem_splitOnChar hp hcp
  · exact absurd h2 (by decide)

/-- C6: a directory with an empty post list and an empty subdirectory
list produces no index page, no search-index artifact, and no feed
artifact. -/
theorem empty_directory_no_artifacts (git : String → Option Nat)
    (folderName cssPath jsPath backURL : String) (config : Config)
    (outputDir : String) (now : Nat) :
    generateIndexArtifact git [] [] folderName cssPath jsPath backURL = none ∧
    generateRSSFeedArtifact [] config outputDir now = none := by
  constructor
  · rfl
  · simp [generateRSSFeedArtifact]

/-- C10: for every tag name, the tag map built by `collectTags` holds it
exactly when some input post carries it; its `Count` equals the length of
its `Posts` list, and `Posts` contains exactly the input posts carrying
the tag, in input order, once per occurrence of the tag on the post. -/
theorem collectTags_characterization (posts : List BlogPost) (t : String) :
    lookupTag (collectTags posts) t =
      (if (tagOccurrences posts t).isEmpty then none
       else some ⟨t, (tagOccurrences posts t).length, tagOccurrences posts t⟩) := by
  rw [collectTags, lookupTag_foldl_posts]
  rfl

/-- C5: the generated directory index lists the posts as a permutation of
the input sorted newest-first by the resolved date (version-control date
when resolvable, else the parsed front-matter date, unparsable or missing
dates resolving to Go's zero time and hence sorting as oldest), the
subdirectories as a permutation sorted alphabetically by name, and the
search-index entries are derived from the same sorted post list. -/
theorem generateIndex_sorted (git : String → Option Nat) (posts : List BlogPost)
    (dirs : List Directory) (folderName cssPath jsPath backURL : String)
    (d : IndexData) (es : List SearchIndexEntry)
    (h : generateIndexArtifact git posts dirs folderName cssPath jsPath backURL = some (d, es)) :
    d.Posts.Perm posts ∧
    d.Posts.Pairwise (fun a b => postSortKey git b ≤ postSortKey git a) ∧
    d.Directories.Perm dirs ∧
    d.Directories.Pairwise (fun a b => lexLt b.Name.data a.Name.data = false) ∧
    es = searchEntries d.Posts ∧
    (∀ p : BlogPost, gitDateFor git p = none → parseDateKey p.Date = none →
      postSortKey git p = zeroDateKey) := by
  have ptotal : ∀ a b : BlogPost, postLe git a b = false → postLe git b a = true := by
    intro a b hab
    simp [postLe] at hab ⊢
    omega
  have ptrans : ∀ a b c : BlogPost,
      postLe git a b = true → postLe git b c = true → postLe git a c = true := by
    intro a b c h1 h2
    simp [postLe] at h1 h2 ⊢
    omega
  have dtotal : ∀ a b : Directory, dirLe a b = false → dirLe b a = true := by
    intro a b hab
    simp [dirLe] at hab ⊢
    exact lexLt_asymm hab
  have dtrans : ∀ a b c : Directory,
      dirLe a b = true → dirLe b c = true → dirLe a c = true := by
    intro a b c h1 h2
    simp [dirLe] at h1 h2 ⊢
    exact lexLt_not_lt_trans h1 h2
  have heq : generateIndexArtifact git posts dirs folderName cssPath jsPath backURL =
      (let sp := insSort (postLe git) posts
       let sd := insSort dirLe dirs
       if sp.length > 0 || sd.length > 0 then
         some ({ Title := folderName, CSSPath := cssPath, JSPath := jsPath,
                 Posts := sp, Directories := sd, BackURL := backURL,
                 HasDirectories := sd.length > 0, URL := backURL, Image := "" },
               searchEntries sp)
       else none) := by
    rw [generateIndexArtifact]
    cases posts with
    | nil => simp [insSort]
    | cons q qs => simp
  rw [heq] at h
  dsimp only at h
  split at h
  · simp only [Option.some.injEq, Prod.mk.injEq] at h
    obtain ⟨hd, hes⟩ := h
    rw [← hd]
    refine ⟨insSort_perm (postLe git) posts, ?_, insSort_perm dirLe dirs, ?_, ?_, ?_⟩
    · exact (insSort_pairwise ptotal ptrans posts).imp (fun hr => of_decide_eq_true hr)
    · refine (insSort_pairwise dtotal dtrans dirs).imp (fun hr => ?_)
      simpa [dirLe] using hr
    · rw [← hes]
    · intro p h1 h2
      simp [postSortKey, h1, h2]
  · simp at h

/-- The sorted index data of the C5 witness run. -/
def idxFixture : IndexData :=
  { Title := "T", CSSPath := "c", JSPath := "j",
    Posts := [postNew, postOld],
    Directories := [⟨"A", "A/index.html"⟩, ⟨"B", "B/index.html"⟩],
    BackURL := "b", HasDirectories := true, URL := "b", Image := "" }

/-- Witness for C5: two posts given oldest-first and two directories
given in reverse alphabetical order come out newest-first and
alphabetical. -/
theorem generateIndex_sorted_witness :
    generateIndexArtifact (fun _ => none) [postOld, postNew]
        [⟨"B", "B/index.html"⟩, ⟨"A", "A/index.html"⟩] "T" "c" "j" "b" =
      some (idxFixture, searchEntries [postNew, postOld]) ∧
    idxFixture.Posts.Pairwise
      (fun a b => postSortKey (fun _ => none) b ≤ postSortKey (fun _ => none) a) ∧
    idxFixture.Directories.Pairwise
      (fun a b => lexLt b.Name.data a.Name.data = false) := by
  have h : generateIndexArtifact (fun _ => none) [postOld, postNew]
      [⟨"B", "B/index.html"⟩, ⟨"A", "A/index.html"⟩] "T" "c" "j" "b" =
      some (idxFixture, searchEntries [postNew, postOld]) := by decide
  have hc := generateIndex_sorted (fun _ => none) [postOld, postNew]
    [⟨"B", "B/index.html"⟩, ⟨"A", "A/index.html"⟩] "T" "c" "j" "b"
    idxFixture (searchEntries [postNew, postOld]) h
  exact ⟨h, hc.2.1, hc.2.2.2.1⟩

/-- Computation of `ConvertDirectory`'s asset configuration on a nested
blog output path (`blog` followed by at least two further components). -/
theorem convertDir_nested (config : Config) (d : Nat) (pre post : List String) (n : Nat)
    (hsplit : goSplitSlash config.OutputDir = pre ++ "blog" :: post)
    (hpre : "blog" ∉ pre) (hlen : post.length = n) (hn : 2 ≤ n) :
    convertDirectoryAssetConfig config d =
      { config with CSSPath := prependPathPrefix config.CSSPath n,
                    JSPath := prependPathPrefix config.JSPath n,
                    Recursive := config.Recursive || config.GenerateRSS } := by
  dsimp only [convertDirectoryAssetConfig]
  rw [hsplit, findFirstIdx_append post hpre]
  dsimp only
  rw [List.drop_left]
  have hl2 : ¬ (("blog" :: post).length = 2) := by simp [hlen]; omega
  have hl1 : ¬ (("blog" :: post).length = 1) := by simp [hlen]; omega
  rw [if_neg hl2, if_neg hl1]
  have hnd : ("blog" :: post).length - 1 = n := by simp [hlen]
  rw [hnd]

/-- Computation of `ConvertDirectory`'s asset configuration on a
first-level blog category output path. -/
theorem convertDir_category (config : Config) (d : Nat) (pre : List String) (cat : String)
    (hsplit : goSplitSlash config.OutputDir = pre ++ ["blog", cat])
    (hpre : "blog" ∉ pre) :
    convertDirectoryAssetConfig config d =
      { config with CSSPath := prependPathPrefix config.CSSPath 2,
                    JSPath := prependPathPrefix config.JSPath 2,
                    Recursive := config.Recursive || config.GenerateRSS } := by
  dsimp only [convertDirectoryAssetConfig]
  rw [hsplit, findFirstIdx_append [cat] hpre]
  dsimp only
  rw [List.drop_left]
  simp

/-- Computation of the `processFiles` subdirectory configuration on any
blog output path: the prefix counts the `"blog"` component itself, so a
path with `k` components after `"blog"` gets `k + 1` levels. -/
theorem processFilesSubdir_blog (config : Config) (subDir : String) (depth : Nat)
    (pre post : List String)
    (hsplit : goSplitSlash subDir = pre ++ "blog" :: post) (hpre : "blog" ∉ pre) :
    processFilesSubdirConfig config subDir depth =
      { config with OutputDir := subDir,
                    CSSPath := prependPathPrefix config.CSSPath (post.length + 1),
                    JSPath := prependPathPrefix config.JSPath (post.length + 1) } := by
  dsimp only [processFilesSubdirConfig]
  rw [hsplit, findFirstIdx_append post hpre]
  dsimp only
  have hbd : (pre ++ "blog" :: post).length - pre.length = post.length + 1 := by
    simp [List.length_append]
  rw [hbd]

/-- C1 counterexample: for the output directory `dist/blog/X/Y`
(`n = 2` components after `"blog"`) with the build's configured asset
paths, the recursive subdirectory branch of `processFiles` produces
three `"../"` levels, not the two the claim asserts — while
`ConvertDirectory` invoked directly produces two, so the two code paths
disagree and the claim fails on the `processFiles` path. -/
theorem blog_nested_asset_prefix_cex :
    (processFilesSubdirConfig cfgNested "dist/blog/X/Y" 0).CSSPath = "../../../css/style.css" ∧
    (convertDirectoryAssetConfig cfgNested 0).CSSPath = "../../css/style.css" ∧
    (processFilesSubdirConfig cfgNested "dist/blog/X/Y" 0).CSSPath ≠
      nCopies 2 "../" ++ cfgNested.CSSPath := by
  refine ⟨?_, ?_, ?_⟩ <;> decide

/-- C1 amended: for an output directory with a `"blog"` component
followed by `n ≥ 2` further components and a relative (non-`http`,
non-slash-leading) configured asset path, `ConvertDirectory` invoked
directly prepends exactly `n` copies of `"../"`, while the recursive
subdirectory branch of `processFiles` prepends `n + 1` copies. -/
theorem blog_nested_asset_prefix_amended (config : Config) (d : Nat)
    (pre post : List String) (n : Nat)
    (hsplit : goSplitSlash config.OutputDir = pre ++ "blog" :: post)
    (hpre : "blog" ∉ pre) (hlen : post.length = n) (hn : 2 ≤ n)
    (hc1 : goHasPre config.CSSPath "http" = false)
    (hc2 : goHasPre config.CSSPath "/" = false)
    (hj1 : goHasPre config.JSPath "http" = false)
    (hj2 : goHasPre config.JSPath "/" = false) :
    ((convertDirectoryAssetConfig config d).CSSPath = nCopies n "../" ++ config.CSSPath ∧
     (convertDirectoryAssetConfig config d).JSPath = nCopies n "../" ++ config.JSPath) ∧
    ∀ (subDir : String) (depth : Nat), goSplitSlash subDir = pre ++ "blog" :: post →
      (processFilesSubdirConfig config subDir depth).CSSPath =
        nCopies (n + 1) "../" ++ config.CSSPath ∧
      (processFilesSubdirConfig config subDir depth).JSPath =
        nCopies (n + 1) "../" ++ config.JSPath := by
  constructor
  · rw [convertDir_nested config d pre post n hsplit hpre hlen hn]
    exact ⟨by simp [prependPathPrefix_eq hc1 hc2],
           by simp [prependPathPrefix_eq hj1 hj2]⟩
  · intro subDir depth hsub
    rw [processFilesSubdir_blog config subDir depth pre post hsub hpre]
    rw [hlen]
    exact ⟨by simp [prependPathPrefix_eq hc1 hc2],
           by simp [prependPathPrefix_eq hj1 hj2]⟩

/-- Witness for C1 amended: the two code paths evaluated on
`dist/blog/X/Y`. -/
theorem blog_nested_asset_prefix_amended_witness :
    (convertDirectoryAssetConfig cfgNested 0).CSSPath = nCopies 2 "../" ++ cfgNested.CSSPath ∧
    (processFilesSubdirConfig cfgNested "dist/blog/X/Y" 7).CSSPath =
      nCopies 3 "../" ++ cfgNested.CSSPath := by
  have h := blog_nested_asset_prefix_amended cfgNested 0 ["dist"] ["X", "Y"] 2
    (by decide) (by decide) (by decide) (by decide) (by decide) (by decide)
    (by decide) (by decide)
  exact ⟨h.1.1, (h.2 "dist/blog/X/Y" 7 (by decide)).1⟩

/-- C3: for every output directory whose components are anything followed
by `"blog"` and exactly one further component, and a relative configured
asset path, both live code paths (`ConvertDirectory` invoked directly and
the recursive subdirectory branch of `processFiles`) produce exactly
`"../../"` prepended to the configured asset path — independently of how
many components precede `"blog"` and of the generic depth value. -/
theorem blog_category_asset_prefix (config : Config) (d : Nat)
    (pre : List String) (cat : String)
    (hsplit : goSplitSlash config.OutputDir = pre ++ ["blog", cat])
    (hpre : "blog" ∉ pre)
    (hc1 : goHasPre config.CSSPath "http" = false)
    (hc2 : goHasPre config.CSSPath "/" = false)
    (hj1 : goHasPre config.JSPath "http" = false)
    (hj2 : goHasPre config.JSPath "/" = false) :
    ((convertDirectoryAssetConfig config d).CSSPath = "../../" ++ config.CSSPath ∧
     (convertDirectoryAssetConfig config d).JSPath = "../../" ++ config.JSPath) ∧
    ∀ (subDir : String) (depth : Nat), goSplitSlash subDir = pre ++ ["blog", cat] →
      (processFilesSubdirConfig config subDir depth).CSSPath = "../../" ++ config.CSSPath ∧
      (processFilesSubdirConfig config subDir depth).JSPath = "../../" ++ config.JSPath := by
  have h2 : nCopies 2 "../" = "../../" := by decide
  constructor
  · rw [convertDir_category config d pre cat hsplit hpre]
    exact ⟨by simp [prependPathPrefix_eq hc1 hc2, h2],
           by simp [prependPathPrefix_eq hj1 hj2, h2]⟩
  · intro subDir depth hsub
    rw [processFilesSubdir_blog config subDir depth pre [cat] hsub hpre]
    exact ⟨by simp [prependPathPrefix_eq hc1 hc2, h2],
           by simp [prependPathPrefix_eq hj1 hj2, h2]⟩

/-- Witness for C3: the repository's own category directory
`dist/blog/Linux`, with an arbitrary generic depth. -/
theorem blog_category_asset_prefix_witness :
    (convertDirectoryAssetConfig cfgCategory 9).CSSPath = "../../css/style.css" ∧
    (processFilesSubdirConfig cfgCategory "dist/blog/Linux" 4).JSPath = "../../js/script.js" := by
  have h := blog_category_asset_prefix cfgCategory 9 ["dist"] "Linux"
    (by decide) (by decide) (by decide) (by decide) (by decide) (by decide)
  refine ⟨?_, ?_⟩
  · rw [h.1.1]; decide
  · rw [(h.2 "dist/blog/Linux" 4 (by decide)).2]; decide

/-- Evaluation of `calculatePathDepth` once the relative path is known:
the shared trunk of the generic and blog-override computations. -/
theorem calculatePathDepth_core (dir root : String) (segs : List (List Char))
    (hne : dir ≠ root)
    (hrel : filepathRel root dir = (⟨joinPieces "/".data segs⟩ : String))
    (hdot : (⟨joinPieces "/".data segs⟩ : String) ≠ ".")
    (hsegs : ∀ s ∈ segs, s ≠ [] ∧ '/' ∉ s) (hsne : segs ≠ []) :
    calculatePathDepth dir root =
      (if goContains dir "blog/" then
        match secondPiece "blog/".data dir.data with
        | some s1 =>
          if s1 ≠ [] then
            (if ((splitOnChar '/' s1).filter (fun c => c ≠ [])).length > 0 then
              (if ((splitOnChar '/' s1).filter (fun c => c ≠ [])).length = 1 then 1
               else ((splitOnChar '/' s1).filter (fun c => c ≠ [])).length)
             else segs.length)
          else segs.length
        | none => segs.length
      else segs.length) := by
  rw [calculatePathDepth, if_neg hne]
  dsimp only
  rw [hrel, if_neg hdot]
  dsimp only
  rw [splitOnChar_joinPieces hsne (fun s hs => (hsegs s hs).2)]
  rw [List.filter_eq_self.mpr (fun a ha => by simp [(hsegs a ha).1])]

/-- The generic branch of `calculatePathDepth`: for a directory strictly
below the root whose absolute path does not contain `"blog/"`, the result
is the number of path segments between root and directory. -/
theorem calculatePathDepth_generic (rsegs dsegs : List (List Char))
    (hseg : ∀ s ∈ rsegs ++ dsegs, s ≠ [] ∧ '/' ∉ s ∧ s ≠ ['.'])
    (hne : dsegs ≠ [])
    (hblog : ¬ ("blog/".data <:+: (mkAbsPath (rsegs ++ dsegs)).data)) :
    calculatePathDepth (mkAbsPath (rsegs ++ dsegs)) (mkAbsPath rsegs) = dsegs.length := by
  have hall : ∀ s ∈ rsegs ++ dsegs, s ≠ [] ∧ '/' ∉ s :=
    fun s hs => ⟨(hseg s hs).1, (hseg s hs).2.1⟩
  have hsegs_dir : pathSegments (mkAbsPath (rsegs ++ dsegs)) = rsegs ++ dsegs :=
    pathSegments_mkAbsPath hall
  have hsegs_root : pathSegments (mkAbsPath rsegs) = rsegs :=
    pathSegments_mkAbsPath (fun s hs => hall s (List.mem_append_left _ hs))
  have hdirne : mkAbsPath (rsegs ++ dsegs) ≠ mkAbsPath rsegs := by
    intro he
    have hps := congrArg pathSegments he
    rw [hsegs_dir, hsegs_root] at hps
    have hl := congrArg List.length hps
    rw [List.length_append] at hl
    have : dsegs.length = 0 := by omega
    exact hne (List.length_eq_zero.mp this)
  have hrel : filepathRel (mkAbsPath rsegs) (mkAbsPath (rsegs ++ dsegs)) =
      (⟨joinPieces "/".data dsegs⟩ : String) := by
    rw [filepathRel, hsegs_root, hsegs_dir, relSegments_append, if_neg hne]
  have hdot : (⟨joinPieces "/".data dsegs⟩ : String) ≠ "." := by
    obtain ⟨d0, rest, hds⟩ := List.exists_cons_of_ne_nil hne
    intro he
    have hdata : joinPieces "/".data dsegs = ['.'] := congrArg String.data he
    have hd0 : d0 ∈ rsegs ++ dsegs := by
      rw [hds]; exact List.mem_append_right _ (List.mem_cons_self d0 rest)
    cases rest with
    | nil =>
      rw [hds] at hdata
      exact (hseg d0 hd0).2.2 hdata
    | cons d1 ds =>
      rw [hds] at hdata
      have hlen := congrArg List.length hdata
      have : joinPieces "/".data (d0 :: d1 :: ds) =
          d0 ++ "/".data ++ joinPieces "/".data (d1 :: ds) := rfl
      rw [this] at hlen
      simp [List.length_append] at hlen
      have hd0ne : d0 ≠ [] := (hseg d0 hd0).1
      have : 1 ≤ d0.length := List.length_pos.mpr hd0ne
      omega
  rw [calculatePathDepth_core (mkAbsPath (rsegs ++ dsegs)) (mkAbsPath rsegs) dsegs
        hdirne hrel hdot (fun s hs => hall s (List.mem_append_right _ hs)) hne]
  rw [goContains_eq_false_of_no_occurrence hblog]
  simp

/-- The blog override of `calculatePathDepth`: a directory whose path is
root followed by a `"blog"` segment and further segments yields the
number of segments after `"blog"`, regardless of how deep the root is. -/
theorem calculatePathDepth_blog (rsegs xsegs : List (List Char))
    (hseg : ∀ s ∈ rsegs ++ xsegs, s ≠ [] ∧ '/' ∉ s ∧ s ≠ ['.'])
    (hr : rsegs ≠ []) (hx : xsegs ≠ [])
    (hno1 : ¬ ("blog/".data <:+: ((mkAbsPath rsegs).data ++ "/blog".data)))
    (hno2 : ¬ ("blog/".data <:+: joinPieces "/".data xsegs)) :
    calculatePathDepth (mkAbsPath (rsegs ++ "blog".data :: xsegs)) (mkAbsPath rsegs) =
      xsegs.length := by
  have hallx : ∀ s ∈ xsegs, s ≠ [] ∧ '/' ∉ s :=
    fun s hs => ⟨(hseg s (List.mem_append_right _ hs)).1,
                 (hseg s (List.mem_append_right _ hs)).2.1⟩
  have hallr : ∀ s ∈ rsegs, s ≠ [] ∧ '/' ∉ s :=
    fun s hs => ⟨(hseg s (List.mem_append_left _ hs)).1,
                 (hseg s (List.mem_append_left _ hs)).2.1⟩
  have hall : ∀ s ∈ rsegs ++ "blog".data :: xsegs, s ≠ [] ∧ '/' ∉ s := by
    intro s hs
    rcases List.mem_append.mp hs with hs | hs
    · exact hallr s hs
    · rcases List.mem_cons.mp hs with hs0 | hs1
      · rw [hs0]; exact ⟨by decide, by decide⟩
      · exact hallx s hs1
  have hsegs_dir : pathSegments (mkAbsPath (rsegs ++ "blog".data :: xsegs)) =
      rsegs ++ "blog".data :: xsegs := pathSegments_mkAbsPath hall
  have hsegs_root : pathSegments (mkAbsPath rsegs) = rsegs := pathSegments_mkAbsPath hallr
  have hdir_ne : mkAbsPath (rsegs ++ "blog".data :: xsegs) ≠ mkAbsPath rsegs := by
    intro he
    have hps := congrArg pathSegments he
    rw [hsegs_dir, hsegs_root] at hps
    have hl := congrArg List.length hps
    rw [List.length_append, List.length_cons] at hl
    omega
  have hrel : filepathRel (mkAbsPath rsegs) (mkAbsPath (rsegs ++ "blog".data :: xsegs)) =
      (⟨joinPieces "/".data ("blog".data :: xsegs)⟩ : String) := by
    rw [filepathRel, hsegs_root, hsegs_dir, relSegments_append, if_neg (by simp)]
  have hdot : (⟨joinPieces "/".data ("blog".data :: xsegs)⟩ : String) ≠ "." := by
    obtain ⟨x0, rest, hxs⟩ := List.exists_cons_of_ne_nil hx
    intro he
    have hdata : joinPieces "/".data ("blog".data :: xsegs) = ['.'] := congrArg String.data he
    rw [hxs] at hdata
    have : joinPieces "/".data ("blog".data :: x0 :: rest) =
        "blog".data ++ "/".data ++ joinPieces "/".data (x0 :: rest) := rfl
    rw [this] at hdata
    have hlen := congrArg List.length hdata
    simp [List.length_append] at hlen
  have hjx_ne : joinPieces "/".data xsegs ≠ [] := by
    obtain ⟨x0, rest, hxs⟩ := List.exists_cons_of_ne_nil hx
    intro he
    cases rest with
    | nil =>
      rw [hxs] at he
      exact (hallx x0 (by rw [hxs]; exact List.mem_cons_self x0 [])).1 he
    | cons x1 xs1 =>
      rw [hxs] at he
      have : joinPieces "/".data (x0 :: x1 :: xs1) =
          x0 ++ "/".data ++ joinPieces "/".data (x1 :: xs1) := rfl
      rw [this] at he
      have hlen := congrArg List.length he
      simp [List.length_append] at hlen
  have hjoin : (mkAbsPath (rsegs ++ "blog".data :: xsegs)).data =
      ('/' :: joinPieces "/".data rsegs ++ ['/']) ++ "blog/".data ++
        joinPieces "/".data xsegs := by
    have h1 : joinPieces "/".data (rsegs ++ "blog".data :: xsegs) =
        joinPieces "/".data rsegs ++ "/".data ++
          joinPieces "/".data ("blog".data :: xsegs) :=
      joinPieces_append hr (by simp)
    have h2 : joinPieces "/".data ("blog".data :: xsegs) =
        "blog".data ++ "/".data ++ joinPieces "/".data xsegs := by
      have hsingle := @joinPieces_append "/".data ["blog".data] xsegs (by simp) hx
      rw [List.singleton_append] at hsingle
      rw [hsingle]
      rfl
    show '/' :: joinPieces "/".data (rsegs ++ "blog".data :: xsegs) = _
    rw [h1, h2]
    simp [List.append_assoc]
  have hfind : findOcc "blog/".data (mkAbsPath (rsegs ++ "blog".data :: xsegs)).data =
      some ('/' :: joinPieces "/".data rsegs ++ ['/'], joinPieces "/".data xsegs) := by
    rw [hjoin]
    have hbd : ("blog/".data : List Char) = 'b' :: "log/".data := rfl
    rw [hbd]
    refine findOcc_boundary _ ?_
    rw [← hbd]
    have hshape : ('/' :: joinPieces "/".data rsegs ++ ['/']) ++ "blog/".data.dropLast =
        (mkAbsPath rsegs).data ++ "/blog".data := by
      have : ("blog/".data.dropLast : List Char) = "blog".data := by decide
      rw [this]
      show ('/' :: joinPieces "/".data rsegs ++ ['/']) ++ "blog".data =
        ('/' :: joinPieces "/".data rsegs) ++ '/' :: "blog".data
      simp
    rw [hshape]
    exact hno1
  have hcontains : goContains (mkAbsPath (rsegs ++ "blog".data :: xsegs)) "blog/" = true := by
    rw [goContains, hfind]
    rfl
  have hsecond : secondPiece "blog/".data (mkAbsPath (rsegs ++ "blog".data :: xsegs)).data =
      some (joinPieces "/".data xsegs) := by
    rw [secondPiece, hfind]
    dsimp only
    rw [findOcc_eq_none_of_no_occurrence hno2]
  rw [calculatePathDepth_core _ _ ("blog".data :: xsegs) hdir_ne hrel hdot
        (fun s hs => hall s (List.mem_append_right _ hs)) (by simp),
      hcontains, hsecond]
  dsimp only
  rw [if_pos hjx_ne]
  rw [splitOnChar_joinPieces hx (fun s hs => (hallx s hs).2)]
  rw [List.filter_eq_self.mpr (fun a ha => by simp [(hallx a ha).1])]
  have hxlen : 0 < xsegs.length := List.length_pos.mpr hx
  split_ifs <;> simp_all

/-- C2 counterexample: `inputRoot/blog/X` lies two segments below the
root, yet `calculatePathDepth` returns 1, not 2 — the blog special case
inside the function (`paths.go:161-184`) overrides the generic segment
count, so the count is not independent of the segment names. -/
theorem calculatePathDepth_cex :
    calculatePathDepth "/r/blog/X" "/r" = 1 ∧ (1 : Nat) ≠ 2 :=
  ⟨by decide, by decide⟩

/-- C2 amended: `calculatePathDepth` returns 0 on equal paths and the
generic count of path segments between root and directory as long as the
directory's absolute path does not contain `"blog/"`; for a directory
whose path is the root followed by a `"blog"` segment and further
segments, it instead returns the number of segments after `"blog"`
(e.g. 1 for `root/blog/X`), regardless of the root's own depth. -/
theorem calculatePathDepth_amended :
    (∀ p : String, calculatePathDepth p p = 0) ∧
    (∀ rsegs dsegs : List (List Char),
      (∀ s ∈ rsegs ++ dsegs, s ≠ [] ∧ '/' ∉ s ∧ s ≠ ['.']) →
      dsegs ≠ [] →
      ¬ ("blog/".data <:+: (mkAbsPath (rsegs ++ dsegs)).data) →
      calculatePathDepth (mkAbsPath (rsegs ++ dsegs)) (mkAbsPath rsegs) = dsegs.length) ∧
    (∀ rsegs xsegs : List (List Char),
      (∀ s ∈ rsegs ++ xsegs, s ≠ [] ∧ '/' ∉ s ∧ s ≠ ['.']) →
      rsegs ≠ [] → xsegs ≠ [] →
      ¬ ("blog/".data <:+: ((mkAbsPath rsegs).data ++ "/blog".data)) →
      ¬ ("blog/".data <:+: joinPieces "/".data xsegs) →
      calculatePathDepth (mkAbsPath (rsegs ++ "blog".data :: xsegs)) (mkAbsPath rsegs) =
        xsegs.length) := by
  refine ⟨?_, calculatePathDepth_generic, calculatePathDepth_blog⟩
  intro p
  simp [calculatePathDepth]

/-- Witness for C2 amended: equal paths, a generic three-deep directory,
and a blog category. -/
theorem calculatePathDepth_amended_witness :
    calculatePathDepth "/a" "/a" = 0 ∧
    calculatePathDepth "/a/b/c/d" "/a" = 3 ∧
    calculatePathDepth "/r/blog/Linux" "/r" = 1 := by
  obtain ⟨h0, hg, hb⟩ := calculatePathDepth_amended
  refine ⟨h0 "/a", ?_, ?_⟩
  · have h := hg ["a".data] ["b".data, "c".data, "d".data] (by decide) (by decide) (by decide)
    have e1 : mkAbsPath (["a".data] ++ ["b".data, "c".data, "d".data]) = "/a/b/c/d" := by decide
    have e2 : mkAbsPath ["a".data] = "/a" := by decide
    rw [e1, e2] at h
    exact h
  · have h := hb ["r".data] ["Linux".data] (by decide) (by decide) (by decide)
      (by decide) (by decide)
    have e1 : mkAbsPath (["r".data] ++ "blog".data :: ["Linux".data]) = "/r/blog/Linux" := by
      decide
    have e2 : mkAbsPath ["r".data] = "/r" := by decide
    rw [e1, e2] at h
    exact h

end Krea
